import Mathlib

/-!
Verification of the `take!` macro of the `taken` crate (src/lib.rs).

The macro is a `macro_rules!` definition with twenty-five rules.  We embed
its input as a list of the tokens the rules discriminate on, its output as a
list of emitted `let` declarations, and the expansion itself as a function
`take` whose match arms mirror the rule list of the source, in source order
(first match wins, recursion on `$($rest)*` as in the macro).
-/

/-- Input tokens of a `take!` invocation.  `ident` is an identifier
(`$var:ident` / `$v:ident` in the macro patterns); `kwMut` is the keyword
`mut`, `kwAs` the keyword `as`, `amp` the token `&`, `eqTok` the token `=`,
and `comma` the token `,`. -/
inductive Tok : Type
  | ident (s : String)
  | kwMut
  | kwAs
  | amp
  | eqTok
  | comma
deriving DecidableEq, Repr

/-- Right-hand side of an emitted `let` declaration: `$var`, `&$var`,
`&mut $var`, or `$var.clone()`, as written in the macro templates. -/
inductive Rhs : Type
  | var (s : String)
  | ref (s : String)
  | refMut (s : String)
  | clone (s : String)
deriving DecidableEq, Repr

/-- An emitted declaration `let [mut] name = rhs;`. -/
structure Decl : Type where
  isMut : Bool
  name : String
  rhs : Rhs
deriving DecidableEq, Repr

/-- Expansion of `take!`: one match arm per `macro_rules!` rule, in the order
of src/lib.rs (twelve "with rest" rules, twelve "without rest" rules, then
the empty rule).  A rule with `$($rest:tt)*` recurses on the remaining
tokens, and the invocation fails (`none`) when no rule matches or a
recursive invocation fails, exactly as macro expansion does. -/
def take : List Tok → Option (List Decl)
  -- with rest
  | Tok.ident v :: Tok.comma :: rest =>
      (take rest).map (fun ds => ⟨false, v, Rhs.var v⟩ :: ds)
  | Tok.ident v :: Tok.kwAs :: Tok.ident w :: Tok.comma :: rest =>
      (take rest).map (fun ds => ⟨false, w, Rhs.var v⟩ :: ds)
  | Tok.kwMut :: Tok.ident v :: Tok.comma :: rest =>
      (take rest).map (fun ds => ⟨true, v, Rhs.var v⟩ :: ds)
  | Tok.kwMut :: Tok.ident v :: Tok.kwAs :: Tok.ident w :: Tok.comma :: rest =>
      (take rest).map (fun ds => ⟨true, w, Rhs.var v⟩ :: ds)
  | Tok.amp :: Tok.ident v :: Tok.comma :: rest =>
      (take rest).map (fun ds => ⟨false, v, Rhs.ref v⟩ :: ds)
  | Tok.amp :: Tok.ident v :: Tok.kwAs :: Tok.ident w :: Tok.comma :: rest =>
      (take rest).map (fun ds => ⟨false, w, Rhs.ref v⟩ :: ds)
  | Tok.amp :: Tok.kwMut :: Tok.ident v :: Tok.comma :: rest =>
      (take rest).map (fun ds => ⟨false, v, Rhs.refMut v⟩ :: ds)
  | Tok.amp :: Tok.kwMut :: Tok.ident v :: Tok.kwAs :: Tok.ident w :: Tok.comma :: rest =>
      (take rest).map (fun ds => ⟨false, w, Rhs.refMut v⟩ :: ds)
  | Tok.eqTok :: Tok.ident v :: Tok.comma :: rest =>
      (take rest).map (fun ds => ⟨false, v, Rhs.clone v⟩ :: ds)
  | Tok.eqTok :: Tok.ident v :: Tok.kwAs :: Tok.ident w :: Tok.comma :: rest =>
      (take rest).map (fun ds => ⟨false, w, Rhs.clone v⟩ :: ds)
  | Tok.eqTok :: Tok.kwMut :: Tok.ident v :: Tok.comma :: rest =>
      (take rest).map (fun ds => ⟨true, v, Rhs.clone v⟩ :: ds)
  | Tok.eqTok :: Tok.kwMut :: Tok.ident v :: Tok.kwAs :: Tok.ident w :: Tok.comma :: rest =>
      (take rest).map (fun ds => ⟨true, w, Rhs.clone v⟩ :: ds)
  -- without rest
  | [Tok.ident v] => some [⟨false, v, Rhs.var v⟩]
  | [Tok.ident v, Tok.kwAs, Tok.ident w] => some [⟨false, w, Rhs.var v⟩]
  | [Tok.kwMut, Tok.ident v] => some [⟨true, v, Rhs.var v⟩]
  | [Tok.kwMut, Tok.ident v, Tok.kwAs, Tok.ident w] => some [⟨true, w, Rhs.var v⟩]
  | [Tok.amp, Tok.ident v] => some [⟨false, v, Rhs.ref v⟩]
  | [Tok.amp, Tok.ident v, Tok.kwAs, Tok.ident w] => some [⟨false, w, Rhs.ref v⟩]
  | [Tok.amp, Tok.kwMut, Tok.ident v] => some [⟨false, v, Rhs.refMut v⟩]
  | [Tok.amp, Tok.kwMut, Tok.ident v, Tok.kwAs, Tok.ident w] => some [⟨false, w, Rhs.refMut v⟩]
  | [Tok.eqTok, Tok.ident v] => some [⟨false, v, Rhs.clone v⟩]
  | [Tok.eqTok, Tok.ident v, Tok.kwAs, Tok.ident w] => some [⟨false, w, Rhs.clone v⟩]
  | [Tok.eqTok, Tok.kwMut, Tok.ident v] => some [⟨true, v, Rhs.clone v⟩]
  | [Tok.eqTok, Tok.kwMut, Tok.ident v, Tok.kwAs, Tok.ident w] => some [⟨true, w, Rhs.clone v⟩]
  -- trailing comma
  | [] => some []
  | _ => none

/-- The six capture modes a clause can use: `x`, `mut x`, `&x`, `&mut x`,
`=x`, `=mut x`. -/
inductive Mode : Type
  | move
  | moveMut
  | ref
  | refMut
  | clone
  | cloneMut
deriving DecidableEq, Repr

/-- A capture clause: a mode, the source variable, and an optional rename
(`as $v`). -/
structure Clause : Type where
  mode : Mode
  var : String
  rename : Option String
deriving DecidableEq, Repr

/-- The token sequence of one clause, as the macro patterns spell it. -/
def clauseToks (c : Clause) : List Tok :=
  (match c.mode with
    | Mode.move => [Tok.ident c.var]
    | Mode.moveMut => [Tok.kwMut, Tok.ident c.var]
    | Mode.ref => [Tok.amp, Tok.ident c.var]
    | Mode.refMut => [Tok.amp, Tok.kwMut, Tok.ident c.var]
    | Mode.clone => [Tok.eqTok, Tok.ident c.var]
    | Mode.cloneMut => [Tok.eqTok, Tok.kwMut, Tok.ident c.var]) ++
  (match c.rename with
    | none => []
    | some v => [Tok.kwAs, Tok.ident v])

/-- The declaration the macro templates emit for one clause: the binding is
named `$v` when `as $v` is present and `$var` otherwise; `mut x` and
`=mut x` emit `let mut`, the rest `let`; the right-hand side is `$var`,
`&$var`, `&mut $var` or `$var.clone()` according to the mode.  Transcribed
rule by rule from the macro templates. -/
def declOf (c : Clause) : Decl :=
  let tgt := c.rename.getD c.var
  match c.mode with
  | Mode.move => ⟨false, tgt, Rhs.var c.var⟩
  | Mode.moveMut => ⟨true, tgt, Rhs.var c.var⟩
  | Mode.ref => ⟨false, tgt, Rhs.ref c.var⟩
  | Mode.refMut => ⟨false, tgt, Rhs.refMut c.var⟩
  | Mode.clone => ⟨false, tgt, Rhs.clone c.var⟩
  | Mode.cloneMut => ⟨true, tgt, Rhs.clone c.var⟩

/-- The token sequence of a comma-separated clause list (no trailing
comma). -/
def clausesToks : List Clause → List Tok
  | [] => []
  | [c] => clauseToks c
  | c :: rest => clauseToks c ++ Tok.comma :: clausesToks rest

-- Sanity checks mirroring the crate's own tests (sanity_syntax,
-- sanity_syntax_comma, sanity_syntax_as, sanity_multi).
example : take [Tok.ident "x"] = some [⟨false, "x", Rhs.var "x"⟩] := by rfl
example : take [Tok.kwMut, Tok.ident "x", Tok.comma] =
    some [⟨true, "x", Rhs.var "x"⟩] := by rfl
example : take [Tok.amp, Tok.kwMut, Tok.ident "x", Tok.kwAs, Tok.ident "y"] =
    some [⟨false, "y", Rhs.refMut "x"⟩] := by rfl
example : take [Tok.ident "x", Tok.comma, Tok.ident "y", Tok.comma,
      Tok.ident "z", Tok.comma] =
    some [⟨false, "x", Rhs.var "x"⟩, ⟨false, "y", Rhs.var "y"⟩,
      ⟨false, "z", Rhs.var "z"⟩] := by rfl
example : take [Tok.eqTok, Tok.kwMut, Tok.ident "z"] =
    some [⟨true, "z", Rhs.clone "z"⟩] := by rfl
example : take [Tok.comma] = none := by rfl
example : take [Tok.kwMut, Tok.kwMut, Tok.ident "x"] = none := by rfl

/-- The rule system of `take!` read as a relation, without the first-match
ordering: the empty rule, the twelve "without rest" rules (`Expands.last`,
one per clause form via `clauseToks` and `declOf`), and the twelve "with
rest" rules (`Expands.cons`). -/
inductive Expands : List Tok → List Decl → Prop
  | nil : Expands [] []
  | last (c : Clause) : Expands (clauseToks c) [declOf c]
  | cons (c : Clause) (rest : List Tok) (ds : List Decl) :
      Expands rest ds → Expands (clauseToks c ++ Tok.comma :: rest) (declOf c :: ds)

theorem take_clauseToks (c : Clause) : take (clauseToks c) = some [declOf c] := by
  obtain ⟨m, x, r⟩ := c
  cases m <;> cases r <;> simp [clauseToks, declOf, take]

theorem take_clauseToks_comma (c : Clause) (rest : List Tok) :
    take (clauseToks c ++ Tok.comma :: rest) =
      (take rest).map (fun ds => declOf c :: ds) := by
  obtain ⟨m, x, r⟩ := c
  cases m <;> cases r <;> simp [clauseToks, declOf, take]

theorem expands_take {ts : List Tok} {ds : List Decl} (h : Expands ts ds) :
    take ts = some ds := by
  induction h with
  | nil => rfl
  | last c => exact take_clauseToks c
  | cons c rest ds _ ih => rw [take_clauseToks_comma, ih]; rfl

theorem take_expands : ∀ (ts : List Tok) (ds : List Decl), take ts = some ds → Expands ts ds := by
  intro ts
  induction ts using take.induct with
  | case1 v rest ih =>
      intro ds h
      simp only [take] at h
      obtain ⟨ds', h', rfl⟩ := Option.map_eq_some'.mp h
      exact Expands.cons ⟨Mode.move, v, none⟩ rest ds' (ih ds' h')
  | case2 v w rest ih =>
      intro ds h
      simp only [take] at h
      obtain ⟨ds', h', rfl⟩ := Option.map_eq_some'.mp h
      exact Expands.cons ⟨Mode.move, v, some w⟩ rest ds' (ih ds' h')
  | case3 v rest ih =>
      intro ds h
      simp only [take] at h
      obtain ⟨ds', h', rfl⟩ := Option.map_eq_some'.mp h
      exact Expands.cons ⟨Mode.moveMut, v, none⟩ rest ds' (ih ds' h')
  | case4 v w rest ih =>
      intro ds h
      simp only [take] at h
      obtain ⟨ds', h', rfl⟩ := Option.map_eq_some'.mp h
      exact Expands.cons ⟨Mode.moveMut, v, some w⟩ rest ds' (ih ds' h')
  | case5 v rest ih =>
      intro ds h
      simp only [take] at h
      obtain ⟨ds', h', rfl⟩ := Option.map_eq_some'.mp h
      exact Expands.cons ⟨Mode.ref, v, none⟩ rest ds' (ih ds' h')
  | case6 v w rest ih =>
      intro ds h
      simp only [take] at h
      obtain ⟨ds', h', rfl⟩ := Option.map_eq_some'.mp h
      exact Expands.cons ⟨Mode.ref, v, some w⟩ rest ds' (ih ds' h')
  | case7 v rest ih =>
      intro ds h
      simp only [take] at h
      obtain ⟨ds', h', rfl⟩ := Option.map_eq_some'.mp h
      exact Expands.cons ⟨Mode.refMut, v, none⟩ rest ds' (ih ds' h')
  | case8 v w rest ih =>
      intro ds h
      simp only [take] at h
      obtain ⟨ds', h', rfl⟩ := Option.map_eq_some'.mp h
      exact Expands.cons ⟨Mode.refMut, v, some w⟩ rest ds' (ih ds' h')
  | case9 v rest ih =>
      intro ds h
      simp only [take] at h
      obtain ⟨ds', h', rfl⟩ := Option.map_eq_some'.mp h
      exact Expands.cons ⟨Mode.clone, v, none⟩ rest ds' (ih ds' h')
  | case10 v w rest ih =>
      intro ds h
      simp only [take] at h
      obtain ⟨ds', h', rfl⟩ := Option.map_eq_some'.mp h
      exact Expands.cons ⟨Mode.clone, v, some w⟩ rest ds' (ih ds' h')
  | case11 v rest ih =>
      intro ds h
      simp only [take] at h
      obtain ⟨ds', h', rfl⟩ := Option.map_eq_some'.mp h
      exact Expands.cons ⟨Mode.cloneMut, v, none⟩ rest ds' (ih ds' h')
  | case12 v w rest ih =>
      intro ds h
      simp only [take] at h
      obtain ⟨ds', h', rfl⟩ := Option.map_eq_some'.mp h
      exact Expands.cons ⟨Mode.cloneMut, v, some w⟩ rest ds' (ih ds' h')
  | case13 v =>
      intro ds h
      simp only [take, Option.some.injEq] at h
      subst h
      exact Expands.last ⟨Mode.move, v, none⟩
  | case14 v w =>
      intro ds h
      simp only [take, Option.some.injEq] at h
      subst h
      exact Expands.last ⟨Mode.move, v, some w⟩
  | case15 v =>
      intro ds h
      simp only [take, Option.some.injEq] at h
      subst h
      exact Expands.last ⟨Mode.moveMut, v, none⟩
  | case16 v w =>
      intro ds h
      simp only [take, Option.some.injEq] at h
      subst h
      exact Expands.last ⟨Mode.moveMut, v, some w⟩
  | case17 v =>
      intro ds h
      simp only [take, Option.some.injEq] at h
      subst h
      exact Expands.last ⟨Mode.ref, v, none⟩
  | case18 v w =>
      intro ds h
      simp only [take, Option.some.injEq] at h
      subst h
      exact Expands.last ⟨Mode.ref, v, some w⟩
  | case19 v =>
      intro ds h
      simp only [take, Option.some.injEq] at h
      subst h
      exact Expands.last ⟨Mode.refMut, v, none⟩
  | case20 v w =>
      intro ds h
      simp only [take, Option.some.injEq] at h
      subst h
      exact Expands.last ⟨Mode.refMut, v, some w⟩
  | case21 v =>
      intro ds h
      simp only [take, Option.some.injEq] at h
      subst h
      exact Expands.last ⟨Mode.clone, v, none⟩
  | case22 v w =>
      intro ds h
      simp only [take, Option.some.injEq] at h
      subst h
      exact Expands.last ⟨Mode.clone, v, some w⟩
  | case23 v =>
      intro ds h
      simp only [take, Option.some.injEq] at h
      subst h
      exact Expands.last ⟨Mode.cloneMut, v, none⟩
  | case24 v w =>
      intro ds h
      simp only [take, Option.some.injEq] at h
      subst h
      exact Expands.last ⟨Mode.cloneMut, v, some w⟩
  | case25 =>
      intro ds h
      simp only [take, Option.some.injEq] at h
      subst h
      exact Expands.nil
  | case26 =>
      intro ds h
      simp only [take] at h
      exact Option.noConfusion h

theorem clausesToks_cons (c c' : Clause) (cs : List Clause) :
    clausesToks (c :: c' :: cs) = clauseToks c ++ Tok.comma :: clausesToks (c' :: cs) := rfl

theorem take_clausesToks (cs : List Clause) :
    take (clausesToks cs) = some (cs.map declOf) := by
  induction cs with
  | nil => rfl
  | cons c cs ih =>
      cases cs with
      | nil => simpa [clausesToks] using take_clauseToks c
      | cons c' cs' =>
          rw [clausesToks_cons, take_clauseToks_comma, ih]
          rfl

theorem take_trailing_comma (c : Clause) (cs : List Clause) :
    take (clausesToks (c :: cs) ++ [Tok.comma]) = take (clausesToks (c :: cs)) := by
  induction cs generalizing c with
  | nil =>
      show take (clauseToks c ++ [Tok.comma]) = take (clauseToks c)
      rw [take_clauseToks_comma, take_clauseToks]
      rfl
  | cons c' cs' ih =>
      rw [clausesToks_cons, List.append_assoc, List.cons_append,
        take_clauseToks_comma, take_clauseToks_comma, ih c']

/-- The closed grammar of `take!` as the specification words it: a
comma-separated list of clauses of the forms `x`, `mut x`, `&x`, `&mut x`,
`=x`, `=mut x`, each optionally followed by `as v`, with an optional
trailing comma (the empty invocation included). -/
def SpecClauseList (ts : List Tok) : Prop :=
  ts = [] ∨ ∃ (cs : List Clause) (tc : Bool), cs ≠ [] ∧
    ts = clausesToks cs ++ (if tc then [Tok.comma] else [])

theorem expands_specClauseList {ts : List Tok} {ds : List Decl}
    (h : Expands ts ds) : SpecClauseList ts := by
  induction h with
  | nil => exact Or.inl rfl
  | last c => exact Or.inr ⟨[c], false, by simp, by simp [clausesToks]⟩
  | cons c rest ds _ ih =>
      rcases ih with rfl | ⟨cs, tc, hne, rfl⟩
      · exact Or.inr ⟨[c], true, by simp, by simp [clausesToks]⟩
      · rcases cs with _ | ⟨c', cs'⟩
        · exact absurd rfl hne
        · exact Or.inr ⟨c :: c' :: cs', tc, by simp,
            by simp [clausesToks_cons, List.append_assoc]⟩

theorem specClauseList_take {ts : List Tok} (h : SpecClauseList ts) :
    ∃ ds, take ts = some ds := by
  rcases h with rfl | ⟨cs, tc, hne, rfl⟩
  · exact ⟨[], rfl⟩
  · rcases cs with _ | ⟨c, cs⟩
    · exact absurd rfl hne
    · cases tc
      · rw [if_neg Bool.false_ne_true, List.append_nil, take_clausesToks]
        exact ⟨_, rfl⟩
      · rw [if_pos rfl, take_trailing_comma, take_clausesToks]
        exact ⟨_, rfl⟩

/-- Does an emitted right-hand side contain a function call?  Only the
clone templates emit one (`$var.clone()`); `$var`, `&$var` and `&mut $var`
are call-free. -/
def Rhs.isCall : Rhs → Bool
  | Rhs.clone _ => true
  | _ => false

/-- The source variable an emitted right-hand side reads. -/
def Rhs.src : Rhs → String
  | Rhs.var s => s
  | Rhs.ref s => s
  | Rhs.refMut s => s
  | Rhs.clone s => s

theorem declOf_isCall_iff (c : Clause) :
    (declOf c).rhs.isCall = true ↔ Tok.eqTok ∈ clauseToks c := by
  obtain ⟨m, x, r⟩ := c
  cases m <;> cases r <;> simp [declOf, clauseToks, Rhs.isCall]

/-- C1: each capture clause expands to exactly the shadowing declaration of
its capture mode: `x` to `let x = x;`, `mut x` to `let mut x = x;`, `&x` to
`let x = &x;`, `&mut x` to `let x = &mut x;`, `=x` to `let x = x.clone();`
and `=mut x` to `let mut x = x.clone();`, covering precisely the four
capture modes (move, immutable reference, mutable reference, clone). -/
theorem take_capture_modes (x : String) :
    take [Tok.ident x] = some [⟨false, x, Rhs.var x⟩] ∧
    take [Tok.kwMut, Tok.ident x] = some [⟨true, x, Rhs.var x⟩] ∧
    take [Tok.amp, Tok.ident x] = some [⟨false, x, Rhs.ref x⟩] ∧
    take [Tok.amp, Tok.kwMut, Tok.ident x] = some [⟨false, x, Rhs.refMut x⟩] ∧
    take [Tok.eqTok, Tok.ident x] = some [⟨false, x, Rhs.clone x⟩] ∧
    take [Tok.eqTok, Tok.kwMut, Tok.ident x] = some [⟨true, x, Rhs.clone x⟩] :=
  ⟨rfl, rfl, rfl, rfl, rfl, rfl⟩

/-- C2: a clause without a rename emits a declaration whose binding carries
the same name as the source variable, so the new binding shadows it. -/
theorem take_no_rename_shadows_source (m : Mode) (x : String) :
    take (clauseToks ⟨m, x, none⟩) = some [declOf ⟨m, x, none⟩] ∧
    (declOf ⟨m, x, none⟩).name = x := by
  refine ⟨take_clauseToks _, ?_⟩
  cases m <;> rfl

/-- C3: a clause with a rename `as v` binds under the new identifier `v`,
its right-hand side reads the source identifier, and the clause does not
rebind the source identifier. -/
theorem take_rename_binds_new_name (m : Mode) (x v : String) (h : v ≠ x) :
    take (clauseToks ⟨m, x, some v⟩) = some [declOf ⟨m, x, some v⟩] ∧
    (declOf ⟨m, x, some v⟩).name = v ∧
    (declOf ⟨m, x, some v⟩).rhs.src = x ∧
    x ∉ [declOf ⟨m, x, some v⟩].map Decl.name := by
  refine ⟨take_clauseToks _, ?_, ?_, ?_⟩
  · cases m <;> rfl
  · cases m <;> rfl
  · cases m <;> simpa [declOf] using fun hx => h hx.symm

theorem take_rename_binds_new_name_witness :
    take (clauseToks ⟨Mode.ref, "src", some "dst"⟩) =
        some [declOf ⟨Mode.ref, "src", some "dst"⟩] ∧
    (declOf ⟨Mode.ref, "src", some "dst"⟩).name = "dst" ∧
    (declOf ⟨Mode.ref, "src", some "dst"⟩).rhs.src = "src" ∧
    "src" ∉ [declOf ⟨Mode.ref, "src", some "dst"⟩].map Decl.name :=
  take_rename_binds_new_name Mode.ref "src" "dst" (by decide)

/-- C4: expansion succeeds exactly on the inputs of the closed grammar (a
comma-separated list of the six clause forms, each optionally renamed, with
optional trailing comma); there is no other failure mode, and a matching
input always expands. -/
theorem take_isSome_iff_grammar (ts : List Tok) :
    (take ts).isSome = true ↔ SpecClauseList ts := by
  constructor
  · intro h
    obtain ⟨ds, hds⟩ := Option.isSome_iff_exists.mp h
    exact expands_specClauseList (take_expands ts ds hds)
  · intro h
    obtain ⟨ds, hds⟩ := specClauseList_take h
    exact Option.isSome_iff_exists.mpr ⟨ds, hds⟩

/-- C5 counterexample: the accepted clause list `=x` expands to
`let x = x.clone();`, whose right-hand side performs a function call, so
the emitted code is not free of function calls. -/
theorem take_clone_clause_emits_call :
    take [Tok.eqTok, Tok.ident "x"] = some [⟨false, "x", Rhs.clone "x"⟩] ∧
    Rhs.isCall (Rhs.clone "x") = true :=
  ⟨rfl, rfl⟩

/-- C5 amended: the emitted code consists only of the bindings themselves,
and it contains a function call exactly when the input contains a `=` token
(a duplication clause), that call being the single `clone()` of that
clause; clause lists without duplication clauses expand to code with no
function calls. -/
theorem take_call_iff_eqTok (ts : List Tok) (ds : List Decl)
    (h : take ts = some ds) :
    (∃ d ∈ ds, d.rhs.isCall = true) ↔ Tok.eqTok ∈ ts := by
  have e := take_expands ts ds h
  clear h
  induction e with
  | nil => simp
  | last c => simp [declOf_isCall_iff]
  | cons c rest ds _ ih => simp [declOf_isCall_iff, ih, or_assoc]

theorem take_call_iff_eqTok_witness :
    ((∃ d ∈ [(⟨false, "x", Rhs.clone "x"⟩ : Decl)], d.rhs.isCall = true) ↔
      Tok.eqTok ∈ [Tok.eqTok, Tok.ident "x"]) :=
  take_call_iff_eqTok [Tok.eqTok, Tok.ident "x"] [⟨false, "x", Rhs.clone "x"⟩] rfl

/-- C6: the rewriting is a pure, deterministic function of the input token
sequence: any two expansions of the same input agree, and both equal the
value `take` computes from the tokens alone. -/
theorem take_deterministic (ts : List Tok) (ds₁ ds₂ : List Decl)
    (h₁ : Expands ts ds₁) (h₂ : Expands ts ds₂) :
    ds₁ = ds₂ ∧ take ts = some ds₁ := by
  have e₁ := expands_take h₁
  have e₂ := expands_take h₂
  exact ⟨Option.some.inj (e₁.symm.trans e₂), e₁⟩

theorem take_deterministic_witness :
    ([(⟨false, "x", Rhs.var "x"⟩ : Decl)] = [(⟨false, "x", Rhs.var "x"⟩ : Decl)]) ∧
    take [Tok.ident "x"] = some [⟨false, "x", Rhs.var "x"⟩] :=
  take_deterministic [Tok.ident "x"] _ _
    (show Expands [Tok.ident "x"] [⟨false, "x", Rhs.var "x"⟩] from
      Expands.last ⟨Mode.move, "x", none⟩)
    (show Expands [Tok.ident "x"] [⟨false, "x", Rhs.var "x"⟩] from
      Expands.last ⟨Mode.move, "x", none⟩)

/-- C7: one declaration per clause, in left-to-right order: `take!(c, rest)`
expands to the expansion of `c` alone followed by the expansion of
`take!(rest)`, and a clause list expands to the list of its clauses'
declarations in order. -/
theorem take_one_decl_per_clause :
    (∀ (c : Clause) (rest : List Tok),
      take (clauseToks c ++ Tok.comma :: rest) =
        (take (clauseToks c)).bind (fun d => (take rest).map (fun ds => d ++ ds))) ∧
    (∀ cs : List Clause, take (clausesToks cs) = some (cs.map declOf)) := by
  constructor
  · intro c rest
    rw [take_clauseToks_comma, take_clauseToks]
    rfl
  · exact take_clausesToks

/-- C8: the empty invocation expands to no declarations, and a trailing
comma after the last clause of a clause list does not change the
expansion. -/
theorem take_empty_and_trailing_comma :
    take [] = some [] ∧
    ∀ (c : Clause) (cs : List Clause),
      take (clausesToks (c :: cs) ++ [Tok.comma]) = take (clausesToks (c :: cs)) :=
  ⟨rfl, take_trailing_comma⟩

/-- C9: for every single clause the "with rest" rule family (matching
`take!(c,)` and then the empty rule) and the "without rest" rule family
(matching `take!(c)`) produce the same expansion. -/
theorem take_rule_families_agree (c : Clause) :
    take (clauseToks c ++ [Tok.comma]) = some [declOf c] ∧
    take (clauseToks c) = some [declOf c] := by
  constructor
  · rw [take_clauseToks_comma]
    rfl
  · exact take_clauseToks c

/-- C10: the emitted binding is declared `mut` exactly for the `mut x` and
`=mut x` clause forms, rename or not; in particular a `&mut x` clause emits
an immutable binding holding the mutable reference. -/
theorem take_mutability (c : Clause) :
    take (clauseToks c) = some [declOf c] ∧
    ((declOf c).isMut = true ↔ (c.mode = Mode.moveMut ∨ c.mode = Mode.cloneMut)) ∧
    (declOf ⟨Mode.refMut, c.var, c.rename⟩).isMut = false := by
  refine ⟨take_clauseToks c, ?_, rfl⟩
  obtain ⟨m, x, r⟩ := c
  cases m <;> simp [declOf]
